import Mathlib

/-!
Verification development for the audio loopback program (src/src/main.rs).

The program relays f32 samples from an input audio stream to an output
audio stream through a bounded single-producer/single-consumer ring
buffer (the `ringbuf` crate's `RingBuffer`).  Samples are opaque values
that are only moved, never combined, so the channel and the two relay
callbacks are embedded polymorphically in the sample type `α`, with a
designated silence value standing for `0.0` where the source writes it.

The ring buffer implementation itself comes from the external `ringbuf`
crate and is not part of the repository sources; its behaviour is
modelled from the spec (section 4.1): a fixed-capacity FIFO whose `push`
fails exactly when `capacity` samples are held and whose `pop` returns
nothing exactly when the buffer is empty.  Because the embedding is
sequential, an arbitrary single-producer/single-consumer interleaving is
represented as a linear list of operations applied to the queue state.
-/

/-- Modelled from the spec: the bounded sample channel of section 4.1
(the `ringbuf` crate's `RingBuffer`, absent from `src/`).  `buf` lists the
samples currently in flight, head of the list = next sample to pop. -/
structure RingBuffer (α : Type) where
  capacity : Nat
  buf : List α
deriving Repr, DecidableEq

/-- Construction `RingBuffer::new(cap)`: an empty channel of fixed capacity. -/
def RingBuffer.new (α : Type) (cap : Nat) : RingBuffer α :=
  { capacity := cap, buf := [] }

/-- Modelled from the spec: `push` enqueues at the tail and fails (flag
`false`, channel unchanged) exactly when the channel already holds
`capacity` samples.  The returned `Bool` is `true` on success, standing
for `Result<(), Full>`. -/
def RingBuffer.push (c : RingBuffer α) (x : α) : RingBuffer α × Bool :=
  if c.buf.length < c.capacity then
    ({ capacity := c.capacity, buf := c.buf ++ [x] }, true)
  else
    (c, false)

/-- Modelled from the spec: `pop` dequeues from the head and returns
`none` exactly when the channel is empty. -/
def RingBuffer.pop (c : RingBuffer α) : RingBuffer α × Option α :=
  match c with
  | { capacity := cap, buf := [] } => ({ capacity := cap, buf := [] }, none)
  | { capacity := cap, buf := x :: rest } => ({ capacity := cap, buf := rest }, some x)

/-- Number of samples currently enqueued. -/
def RingBuffer.size (c : RingBuffer α) : Nat := c.buf.length

/-- One operation of the single-producer/single-consumer history:
a producer-side `push` of a value, or a consumer-side `pop`. -/
inductive ChanOp (α : Type) where
  | push (x : α)
  | pop
deriving Repr, DecidableEq

/-- State of a run over the channel: the channel itself, the values whose
pushes succeeded (in order), and the values returned by successful pops
(in order). -/
structure ChanRun (α : Type) where
  chan : RingBuffer α
  pushedOk : List α
  popped : List α
deriving Repr, DecidableEq

/-- Initial run state: a freshly constructed channel, no history. -/
def ChanRun.init (α : Type) (cap : Nat) : ChanRun α :=
  { chan := RingBuffer.new α cap, pushedOk := [], popped := [] }

/-- Apply one operation to the run state, recording successful pushes and
successful pops. -/
def ChanRun.step (s : ChanRun α) : ChanOp α → ChanRun α
  | ChanOp.push x =>
    let p := s.chan.push x
    { chan := p.1
      pushedOk := if p.2 then s.pushedOk ++ [x] else s.pushedOk
      popped := s.popped }
  | ChanOp.pop =>
    let p := s.chan.pop
    { chan := p.1
      pushedOk := s.pushedOk
      popped :=
        match p.2 with
        | some v => s.popped ++ [v]
        | none => s.popped }

/-- Apply a whole sequence of operations. -/
def ChanRun.run (s : ChanRun α) (ops : List (ChanOp α)) : ChanRun α :=
  ops.foldl ChanRun.step s

/-- Unfolding of `ChanRun.run` on a cons. -/
theorem ChanRun.run_cons (s : ChanRun α) (op : ChanOp α) (ops : List (ChanOp α)) :
    ChanRun.run s (op :: ops) = ChanRun.run (s.step op) ops := rfl

/-- Key invariant: the successfully popped values followed by the samples
still in flight are exactly the successfully pushed values, in order. -/
def ChanRun.faithful (s : ChanRun α) : Prop :=
  s.popped ++ s.chan.buf = s.pushedOk

theorem ChanRun.step_faithful (s : ChanRun α) (op : ChanOp α)
    (h : s.faithful) : (s.step op).faithful := by
  cases op with
  | push x =>
    simp only [ChanRun.faithful, ChanRun.step, RingBuffer.push] at *
    split
    · simp [← h, List.append_assoc]
    · simpa using h
  | pop =>
    simp only [ChanRun.faithful, ChanRun.step, RingBuffer.pop] at *
    match hc : s.chan with
    | { capacity := cap, buf := [] } =>
      rw [hc] at h; simpa using h
    | { capacity := cap, buf := x :: rest } =>
      rw [hc] at h
      simpa [List.append_assoc] using h

theorem ChanRun.run_faithful (ops : List (ChanOp α)) (s : ChanRun α)
    (h : s.faithful) : (s.run ops).faithful := by
  induction ops generalizing s with
  | nil => exact h
  | cons op ops ih => exact ih (s.step op) (s.step_faithful op h)

/-- Capacity is fixed and the fill level stays bounded by it across one step. -/
theorem ChanRun.step_bounded (s : ChanRun α) (op : ChanOp α)
    (h : s.chan.buf.length ≤ s.chan.capacity) :
    (s.step op).chan.capacity = s.chan.capacity ∧
      (s.step op).chan.buf.length ≤ s.chan.capacity := by
  cases op with
  | push x =>
    simp only [ChanRun.step, RingBuffer.push]
    split
    · exact ⟨rfl, by simp; omega⟩
    · exact ⟨rfl, h⟩
  | pop =>
    simp only [ChanRun.step, RingBuffer.pop]
    match hc : s.chan with
    | { capacity := cap, buf := [] } =>
      rw [hc] at h; exact ⟨rfl, by simp⟩
    | { capacity := cap, buf := x :: rest } =>
      rw [hc] at h
      refine ⟨rfl, ?_⟩
      simp only [List.length_cons] at h
      simp
      omega

theorem ChanRun.run_bounded (ops : List (ChanOp α)) (s : ChanRun α)
    (h : s.chan.buf.length ≤ s.chan.capacity) :
    (s.run ops).chan.capacity = s.chan.capacity ∧
      (s.run ops).chan.buf.length ≤ s.chan.capacity := by
  induction ops generalizing s with
  | nil => exact ⟨rfl, h⟩
  | cons op ops ih =>
    have h1 := (s.step_bounded op h).1
    have h2 := (s.step_bounded op h).2
    have h3 : (s.step op).chan.buf.length ≤ (s.step op).chan.capacity := by
      rw [h1]; exact h2
    have h4 := ih (s.step op) h3
    rw [ChanRun.run_cons]
    exact ⟨by rw [h4.1, h1], h1 ▸ h4.2⟩

/-- C1: the popped sequence together with the in-flight samples equals the
successfully pushed sequence, so the pops are an in-order subsequence of
the pushes: nothing is reordered, duplicated, or silently lost. -/
theorem fifo_pops_subsequence_of_pushes (α : Type) (cap : Nat)
    (ops : List (ChanOp α)) :
    ((ChanRun.init α cap).run ops).popped ++ ((ChanRun.init α cap).run ops).chan.buf
        = ((ChanRun.init α cap).run ops).pushedOk ∧
      List.Sublist ((ChanRun.init α cap).run ops).popped
        ((ChanRun.init α cap).run ops).pushedOk := by
  have h : ((ChanRun.init α cap).run ops).faithful :=
    ChanRun.run_faithful ops _ (by simp [ChanRun.faithful, ChanRun.init, RingBuffer.new])
  refine ⟨h, ?_⟩
  rw [← h]
  exact List.sublist_append_left _ _

/-- C2: for a channel constructed with capacity `cap`, after any sequence
of operations the number of enqueued samples is at least `0` and never
exceeds `cap`. -/
theorem size_bounded_by_capacity (α : Type) (cap : Nat)
    (ops : List (ChanOp α)) :
    0 ≤ ((ChanRun.init α cap).run ops).chan.size ∧
      ((ChanRun.init α cap).run ops).chan.size ≤ cap := by
  have h := ChanRun.run_bounded ops (ChanRun.init α cap)
    (by simp [ChanRun.init, RingBuffer.new])
  exact ⟨Nat.zero_le _, by simpa [ChanRun.init, RingBuffer.new, RingBuffer.size] using h.2⟩

/-! ### Capture relay (src/src/main.rs lines 61-71)

`input_data_fn` iterates over the incoming batch and pushes each sample;
a failed push sets the local `output_fell_behind` flag, and after the
batch one diagnostic line is printed when the flag is set. -/

/-- Loop body of the capture callback: push one sample, or-ing a failure
into the `output_fell_behind` flag. -/
def capturePushStep (acc : RingBuffer α × Bool) (sample : α) : RingBuffer α × Bool :=
  let p := acc.1.push sample
  (p.1, acc.2 || !p.2)

/-- The capture callback's whole loop over a batch, starting with a clear
`output_fell_behind` flag. -/
def RingBuffer.pushAll (producer : RingBuffer α) (data : List α) :
    RingBuffer α × Bool :=
  data.foldl capturePushStep (producer, false)

/-- Embedding of `input_data_fn`: returns the producer's channel after
the batch and the number of "output stream fell behind" diagnostic lines
printed by this invocation. -/
def input_data_fn (producer : RingBuffer α) (data : List α) :
    RingBuffer α × Nat :=
  let r := producer.pushAll data
  (r.1, if r.2 then 1 else 0)

theorem capture_fold_spec (data : List α) :
    ∀ (c : RingBuffer α) (b : Bool), c.buf.length ≤ c.capacity →
      (data.foldl capturePushStep (c, b)).1.capacity = c.capacity ∧
        (data.foldl capturePushStep (c, b)).1.buf
          = c.buf ++ data.take (c.capacity - c.buf.length) ∧
        (data.foldl capturePushStep (c, b)).2
          = (b || decide (c.capacity - c.buf.length < data.length)) := by
  induction data with
  | nil => intro c b h; simp
  | cons x rest ih =>
    intro c b h
    by_cases hlt : c.buf.length < c.capacity
    · have hstep : capturePushStep (c, b) x
          = ({ capacity := c.capacity, buf := c.buf ++ [x] }, b) := by
        simp [capturePushStep, RingBuffer.push, hlt]
      have h2 : ({ capacity := c.capacity, buf := c.buf ++ [x] } :
          RingBuffer α).buf.length
          ≤ ({ capacity := c.capacity, buf := c.buf ++ [x] } : RingBuffer α).capacity := by
        simp; omega
      have := ih { capacity := c.capacity, buf := c.buf ++ [x] } b h2
      simp only [List.foldl_cons, hstep]
      refine ⟨this.1, ?_, ?_⟩
      · rw [this.2.1]
        have hsub : c.capacity - c.buf.length = (c.capacity - (c.buf.length + 1)) + 1 := by
          omega
        simp only [List.length_append, List.length_cons, List.length_nil]
        rw [hsub, List.take_succ_cons, List.append_assoc]
        simp
      · rw [this.2.2]
        simp only [List.length_append, List.length_cons, List.length_nil]
        congr 1
        rw [decide_eq_decide]
        omega
    · have heq : c.buf.length = c.capacity := by omega
      have hstep : capturePushStep (c, b) x = (c, true) := by
        simp [capturePushStep, RingBuffer.push, hlt]
      have := ih c true h
      simp only [List.foldl_cons, hstep]
      refine ⟨this.1, ?_, ?_⟩
      · rw [this.2.1]
        simp [heq]
      · rw [this.2.2]
        simp [heq]

/-- C4: when the batch is larger than the remaining free capacity, the
samples that fit are enqueued in batch order, the rest are dropped, and
the "output stream fell behind" diagnostic is printed exactly once for
the whole invocation. -/
theorem capture_overrun (c : RingBuffer α) (data : List α)
    (hinv : c.buf.length ≤ c.capacity)
    (hover : c.capacity - c.buf.length < data.length) :
    (input_data_fn c data).1.buf = c.buf ++ data.take (c.capacity - c.buf.length) ∧
      (input_data_fn c data).1.capacity = c.capacity ∧
      (input_data_fn c data).2 = 1 := by
  have h := capture_fold_spec data c false hinv
  simp only [input_data_fn, RingBuffer.pushAll]
  refine ⟨h.2.1, h.1, ?_⟩
  simp only [h.2.2, Bool.false_or]
  simp [hover]

/-- Witness for `capture_overrun`: capacity 2 with one sample enqueued,
batch of three; one sample fits, two are dropped, one diagnostic. -/
theorem capture_overrun_witness :
    ({ capacity := 2, buf := [9] } : RingBuffer Int).buf.length
        ≤ ({ capacity := 2, buf := [9] } : RingBuffer Int).capacity ∧
      (input_data_fn ({ capacity := 2, buf := [9] } : RingBuffer Int) [1, 2, 3]).1.buf
          = [9, 1] ∧
        (input_data_fn ({ capacity := 2, buf := [9] } : RingBuffer Int) [1, 2, 3]).2 = 1 := by
  have h := capture_overrun ({ capacity := 2, buf := [9] } : RingBuffer Int) [1, 2, 3]
    (by decide) (by decide)
  exact ⟨by decide, by rw [h.1]; decide, h.2.2⟩

/-! ### Playback relay (src/src/main.rs lines 73-87)

`output_data_fn` fills each requested output slot from the channel; an
empty pop writes silence (`0.0`) into the slot and sets the local
`input_fell_behind` flag, and after the batch one diagnostic line is
printed when the flag is set. -/

/-- Loop of the playback callback over `slots` output positions: returns
the consumer's channel after the batch, the samples written to the slots
in order, and the `input_fell_behind` flag. -/
def fillSlots (consumer : RingBuffer α) (zero : α) : Nat → RingBuffer α × List α × Bool
  | 0 => (consumer, [], false)
  | Nat.succ n =>
    let p := consumer.pop
    match p.2 with
    | some s =>
      let r := fillSlots p.1 zero n
      (r.1, s :: r.2.1, r.2.2)
    | none =>
      let r := fillSlots p.1 zero n
      (r.1, zero :: r.2.1, true)

/-- Embedding of `output_data_fn`: the consumer's channel after the
batch, the samples written to the output slice, and the number of
"input stream fell behind" diagnostic lines printed by this invocation. -/
def output_data_fn (consumer : RingBuffer α) (zero : α) (slots : Nat) :
    RingBuffer α × List α × Nat :=
  let r := fillSlots consumer zero slots
  (r.1, r.2.1, if r.2.2 then 1 else 0)

theorem fillSlots_spec (zero : α) (n : Nat) :
    ∀ c : RingBuffer α,
      (fillSlots c zero n).1.capacity = c.capacity ∧
        (fillSlots c zero n).1.buf = c.buf.drop n ∧
        (fillSlots c zero n).2.1
          = c.buf.take n ++ List.replicate (n - c.buf.length) zero ∧
        (fillSlots c zero n).2.2 = decide (c.buf.length < n) := by
  induction n with
  | zero => intro c; simp [fillSlots]
  | succ n ih =>
    intro c
    match hc : c with
    | { capacity := cap, buf := [] } =>
      have h := ih { capacity := cap, buf := [] }
      simp only [fillSlots, RingBuffer.pop]
      refine ⟨h.1, by simp [h.2.1], ?_, by simp⟩
      rw [h.2.2.1]
      simp [List.replicate_succ]
    | { capacity := cap, buf := x :: rest } =>
      have h := ih { capacity := cap, buf := rest }
      simp only [fillSlots, RingBuffer.pop]
      refine ⟨h.1, by simp [h.2.1], ?_, ?_⟩
      · rw [h.2.2.1]
        simp [Nat.succ_sub_succ]
      · rw [h.2.2.2]
        simp

/-- C5: when `slots` output positions are requested while the channel
holds fewer samples, the available samples fill the first positions in
FIFO order, every remaining position is written with silence, the whole
slice is written, and the "input stream fell behind" diagnostic is
printed exactly once for the invocation. -/
theorem playback_underrun (c : RingBuffer α) (zero : α) (slots : Nat)
    (h : c.buf.length < slots) :
    (output_data_fn c zero slots).2.1
        = c.buf ++ List.replicate (slots - c.buf.length) zero ∧
      (output_data_fn c zero slots).2.1.length = slots ∧
      (output_data_fn c zero slots).1.buf = [] ∧
      (output_data_fn c zero slots).2.2 = 1 := by
  have hs := fillSlots_spec zero slots c
  simp only [output_data_fn]
  have htake : c.buf.take slots = c.buf := List.take_of_length_le (Nat.le_of_lt h)
  refine ⟨?_, ?_, ?_, ?_⟩
  · rw [hs.2.2.1, htake]
  · rw [hs.2.2.1, htake]
    simp only [List.length_append, List.length_replicate]
    omega
  · rw [hs.2.1]
    exact List.drop_eq_nil_of_le (Nat.le_of_lt h)
  · simp only [hs.2.2.2, h, decide_True, if_true]

/-- Witness for `playback_underrun`: two samples enqueued, three slots
requested; the output is the two samples then one silent sample, the
channel is drained, and one diagnostic is printed. -/
theorem playback_underrun_witness :
    ({ capacity := 4, buf := [5, 6] } : RingBuffer Int).buf.length < 3 ∧
      (output_data_fn ({ capacity := 4, buf := [5, 6] } : RingBuffer Int) 0 3).2.1
          = [5, 6, 0] ∧
        (output_data_fn ({ capacity := 4, buf := [5, 6] } : RingBuffer Int) 0 3).2.2 = 1 := by
  have h := playback_underrun ({ capacity := 4, buf := [5, 6] } : RingBuffer Int) 0 3
    (by decide)
  exact ⟨by decide, by rw [h.1]; decide, h.2.2.2⟩

/-! ### Latency primer (src/src/main.rs lines 57-59)

`for _ in 0..latency_samples { producer.push(0.0).unwrap(); }`
pre-fills the channel with silence.  The `unwrap` panic on a failed push
is modelled as `none`: the failure aborts `main` instead of being
recovered. -/

/-- Embedding of the priming loop: push `zero` the given number of times;
`none` models the `unwrap` panic propagating out of `main` when a push
fails. -/
def primeLoop (producer : RingBuffer α) (zero : α) : Nat → Option (RingBuffer α)
  | 0 => some producer
  | Nat.succ n =>
    let p := producer.push zero
    if p.2 then primeLoop p.1 zero n else none

/-- Iterated `pop`: the channel after `n` pops together with the results
of the `n` pops in order. -/
def popN (c : RingBuffer α) : Nat → RingBuffer α × List (Option α)
  | 0 => (c, [])
  | Nat.succ n =>
    let p := c.pop
    let r := popN p.1 n
    (r.1, p.2 :: r.2)

theorem primeLoop_ok (zero : α) (n : Nat) :
    ∀ c : RingBuffer α, c.buf.length + n ≤ c.capacity →
      primeLoop c zero n
        = some { capacity := c.capacity, buf := c.buf ++ List.replicate n zero } := by
  induction n with
  | zero => intro c h; simp [primeLoop]
  | succ n ih =>
    intro c h
    have hlt : c.buf.length < c.capacity := by omega
    have hstep : c.push zero
        = ({ capacity := c.capacity, buf := c.buf ++ [zero] }, true) := by
      simp [RingBuffer.push, hlt]
    have h2 : ({ capacity := c.capacity, buf := c.buf ++ [zero] } :
        RingBuffer α).buf.length + n
        ≤ ({ capacity := c.capacity, buf := c.buf ++ [zero] } : RingBuffer α).capacity := by
      simp; omega
    simp only [primeLoop, hstep, if_true]
    rw [ih _ h2]
    simp [List.replicate_succ, List.append_assoc]

theorem primeLoop_overflow (zero : α) (n : Nat) :
    ∀ c : RingBuffer α, c.buf.length ≤ c.capacity →
      c.capacity < c.buf.length + n →
      primeLoop c zero n = none := by
  induction n with
  | zero => intro c h1 h2; omega
  | succ n ih =>
    intro c h1 h2
    by_cases hlt : c.buf.length < c.capacity
    · have hstep : c.push zero
          = ({ capacity := c.capacity, buf := c.buf ++ [zero] }, true) := by
        simp [RingBuffer.push, hlt]
      simp only [primeLoop, hstep, if_true]
      exact ih _ (by simp; omega) (by simp; omega)
    · have hstep : c.push zero = (c, false) := by
        simp [RingBuffer.push, hlt]
      simp [primeLoop, hstep]

theorem popN_all (zero : α) (n : Nat) :
    ∀ cap : Nat,
      popN ({ capacity := cap, buf := List.replicate n zero } : RingBuffer α) n
        = ({ capacity := cap, buf := [] }, List.replicate n (some zero)) := by
  induction n with
  | zero => intro cap; simp [popN]
  | succ n ih =>
    intro cap
    simp only [List.replicate_succ, popN, RingBuffer.pop]
    rw [ih cap]

/-- C6: for priming depth `d ≤ cap`, the priming loop succeeds on a fresh
channel and leaves exactly `d` silent samples; `d` subsequent pops each
return the silent sample, after which the channel is empty and `pop`
returns nothing. -/
theorem priming_fills_with_silence (α : Type) (zero : α) (cap d : Nat)
    (h : d ≤ cap) :
    primeLoop (RingBuffer.new α cap) zero d
        = some { capacity := cap, buf := List.replicate d zero } ∧
      ({ capacity := cap, buf := List.replicate d zero } : RingBuffer α).size = d ∧
      (popN ({ capacity := cap, buf := List.replicate d zero } : RingBuffer α) d).2
        = List.replicate d (some zero) ∧
      ((popN ({ capacity := cap, buf := List.replicate d zero } : RingBuffer α) d).1).pop.2
        = none := by
  refine ⟨?_, by simp [RingBuffer.size], ?_, ?_⟩
  · have := primeLoop_ok zero d (RingBuffer.new α cap) (by simp [RingBuffer.new]; omega)
    simpa [RingBuffer.new] using this
  · rw [popN_all]
  · rw [popN_all]
    simp [RingBuffer.pop]

/-- Witness for `priming_fills_with_silence`: capacity 3, priming depth 2. -/
theorem priming_fills_with_silence_witness :
    (2 ≤ 3) ∧
      (primeLoop (RingBuffer.new Int 3) 0 2
          = some { capacity := 3, buf := [0, 0] } ∧
        ({ capacity := 3, buf := [0, 0] } : RingBuffer Int).size = 2 ∧
        (popN ({ capacity := 3, buf := [0, 0] } : RingBuffer Int) 2).2
          = [some 0, some 0] ∧
        ((popN ({ capacity := 3, buf := [0, 0] } : RingBuffer Int) 2).1).pop.2 = none) := by
  have h := priming_fills_with_silence Int 0 3 2 (by decide)
  exact ⟨by decide, h.1, h.2.1, h.2.2.1, h.2.2.2⟩

/-- C9: when the priming depth exceeds the channel capacity, priming
fails: the loop hits a failed push and the `unwrap` panic propagates,
terminating the run instead of being recovered. -/
theorem priming_overflow_fatal (α : Type) (zero : α) (cap d : Nat)
    (h : cap < d) :
    primeLoop (RingBuffer.new α cap) zero d = none := by
  exact primeLoop_overflow zero d (RingBuffer.new α cap)
    (by simp [RingBuffer.new]) (by simp [RingBuffer.new]; omega)

/-- Witness for `priming_overflow_fatal`: capacity 1, priming depth 2. -/
theorem priming_overflow_fatal_witness :
    (1 < 2) ∧ primeLoop (RingBuffer.new Int 1) 0 2 = none :=
  ⟨by decide, priming_overflow_fatal Int 0 1 2 (by decide)⟩

/-- C10: the channel is constructed with capacity `latency_samples * 2`
and primed with `latency_samples` pushes, so every priming push succeeds
and the `unwrap` never panics, whatever `latency_samples` is. -/
theorem priming_never_panics (α : Type) (zero : α) (n : Nat) :
    (primeLoop (RingBuffer.new α (n * 2)) zero n).isSome = true := by
  rw [primeLoop_ok zero n (RingBuffer.new α (n * 2)) (by simp [RingBuffer.new]; omega)]
  rfl

/-! ### Full/empty characterization of the channel -/

/-- C8: `push` fails exactly when the channel currently holds `capacity`
samples, and `pop` returns nothing exactly when the channel currently
holds `0` samples; both are total functions of the current state, with no
blocking or retrying. -/
theorem push_full_pop_empty (c : RingBuffer α) (x : α)
    (h : c.buf.length ≤ c.capacity) :
    ((c.push x).2 = false ↔ c.size = c.capacity) ∧
      (c.pop.2 = none ↔ c.size = 0) := by
  constructor
  · simp only [RingBuffer.push, RingBuffer.size]
    split
    · next hlt => simp; omega
    · next hge => simp; omega
  · match hc : c with
    | { capacity := cap, buf := [] } => simp [RingBuffer.pop, RingBuffer.size]
    | { capacity := cap, buf := y :: rest } => simp [RingBuffer.pop, RingBuffer.size]

/-- Witness for `push_full_pop_empty`: capacity 2 holding one sample;
the push succeeds and the pop returns a sample. -/
theorem push_full_pop_empty_witness :
    ({ capacity := 2, buf := [5] } : RingBuffer Int).buf.length
        ≤ ({ capacity := 2, buf := [5] } : RingBuffer Int).capacity ∧
      ((((( { capacity := 2, buf := [5] } : RingBuffer Int)).push 7).2 = false
          ↔ ({ capacity := 2, buf := [5] } : RingBuffer Int).size
              = ({ capacity := 2, buf := [5] } : RingBuffer Int).capacity) ∧
        ((( { capacity := 2, buf := [5] } : RingBuffer Int)).pop.2 = none
          ↔ ({ capacity := 2, buf := [5] } : RingBuffer Int).size = 0)) :=
  ⟨by decide, push_full_pop_empty ({ capacity := 2, buf := [5] } : RingBuffer Int) 7
    (by decide)⟩

/-! ### Stream startup sequence (src/src/main.rs lines 106-107)

After building both streams, `main` issues exactly two `play()` calls,
both on `input_stream`; no `play()` is ever issued on `output_stream`. -/

/-- The two streams built by `main`. -/
inductive StreamId where
  | input
  | output
deriving Repr, DecidableEq

/-- The sequence of `play()` calls issued by `main` after the streams are
built, in program order (src/src/main.rs lines 106-107). -/
def playCalls : List StreamId := [StreamId.input, StreamId.input]

/-- C3 fails on the code: the startup sequence plays the input stream
twice and never plays the output stream, so the output stream is never
started before the run. -/
theorem output_stream_never_started :
    StreamId.input ∈ playCalls ∧ StreamId.output ∉ playCalls ∧
      playCalls = [StreamId.input, StreamId.input] := by decide

/-! ### Latency computation (src/src/main.rs lines 51-54)

`latency_frames = (opt.latency / 1_000.0) * config.sample_rate.0 as f32`
is computed in f32 and then truncated by `as usize`; the capacity of the
ring is `latency_samples * 2`.  The f32 arithmetic is embedded exactly:
an f32 value and every exact intermediate quotient/product is an integer
fraction `Frac` (numerator and denominator, kept unreduced), and each
f32 operation correctly rounds its exact result to 24 mantissa bits with
round-to-nearest, ties-to-even, which is IEEE-754 binary32 behaviour on
the positive normal range (subnormal and overflow thresholds are outside
the values `main` computes and are not modelled; a nonpositive input is
mapped to zero, matching `as usize` saturation at 0). -/

/-- Exact rational value as an integer fraction; in this development the
denominator is always positive. -/
structure Frac where
  num : Int
  den : Int
deriving Repr, DecidableEq

/-- Exact product of two fractions. -/
def Frac.mul (a b : Frac) : Frac := ⟨a.num * b.num, a.den * b.den⟩

/-- Exact quotient of two fractions (used with positive divisors only). -/
def Frac.div (a b : Frac) : Frac := ⟨a.num * b.den, a.den * b.num⟩

/-- Round a fraction with positive denominator to the nearest integer,
ties to even. -/
def roundHalfEven (x : Frac) : Int :=
  let f := Int.fdiv x.num x.den
  let r := x.num - f * x.den
  if 2 * r < x.den then f
  else if x.den < 2 * r then f + 1
  else if f % 2 = 0 then f else f + 1

/-- Binary exponent of a positive fraction: the integer `e` with
`2 ^ e ≤ x < 2 ^ (e + 1)`, found by scaling; the fuel `300` used below
covers the whole f32 range. -/
def floorLog2 (x : Frac) : Nat → Int
  | 0 => 0
  | Nat.succ fuel =>
    if x.num < x.den then floorLog2 ⟨x.num * 2, x.den⟩ fuel - 1
    else if 2 * x.den ≤ x.num then floorLog2 ⟨x.num, x.den * 2⟩ fuel + 1
    else 0

/-- Integer power of two. -/
def pow2 (k : Nat) : Int := ((2 ^ k : Nat) : Int)

/-- Correctly round a nonnegative exact fraction to f32: scale into the
24-bit mantissa range `[2 ^ 23, 2 ^ 24)` for its binary exponent, round
to nearest (ties to even), and scale back. -/
def roundF32 (x : Frac) : Frac :=
  if x.num ≤ 0 then ⟨0, 1⟩
  else
    let e := floorLog2 x 300
    let s := (23 : Int) - e
    if 0 ≤ s then
      ⟨roundHalfEven ⟨x.num * pow2 s.toNat, x.den⟩, pow2 s.toNat⟩
    else
      ⟨roundHalfEven ⟨x.num, x.den * pow2 (-s).toNat⟩ * pow2 (-s).toNat, 1⟩

/-- Rust `as usize` on a nonnegative f32 value: truncation toward zero
(equivalently, the floor for nonnegative values; negative values saturate
to `0`). -/
def f32toUsize (x : Frac) : Nat := (Int.fdiv x.num x.den).toNat

/-- `let latency_frames = (opt.latency / 1_000.0) * config.sample_rate.0 as f32`
(src/src/main.rs line 51): the f32 division of the latency argument by
`1000.0`, the u32-to-f32 conversion of the sample rate, and the f32
product, each correctly rounded. -/
def latency_frames (latency : Frac) (sample_rate : Nat) : Frac :=
  roundF32 ((roundF32 (latency.div ⟨1000, 1⟩)).mul (roundF32 ⟨(sample_rate : Int), 1⟩))

/-- `let latency_samples = latency_frames as usize * config.channels as usize`
(src/src/main.rs line 52): the f32 frame count truncated to an integer,
then multiplied by the channel count. -/
def latency_samples (latency : Frac) (sample_rate channels : Nat) : Nat :=
  f32toUsize (latency_frames latency sample_rate) * channels

/-- `let ring = RingBuffer::new(latency_samples * 2)` (src/src/main.rs
line 54): the channel capacity is double the latency depth. -/
def ring_capacity (latency : Frac) (sample_rate channels : Nat) : Nat :=
  latency_samples latency sample_rate channels * 2

/-- C7: the latency depth truncates the f32 frame count before the
channel-count multiplication, the capacity doubles the sample count, and
for latency 150 ms, sample rate 48000 Hz and one channel the computation
yields 7200 frames (truncated), 7200 samples, and capacity 14400. -/
theorem latency_depth_computation :
    (∀ (latency : Frac) (sample_rate channels : Nat),
        latency_samples latency sample_rate channels
            = f32toUsize (latency_frames latency sample_rate) * channels ∧
          ring_capacity latency sample_rate channels
            = 2 * latency_samples latency sample_rate channels) ∧
      f32toUsize (latency_frames ⟨150, 1⟩ 48000) = 7200 ∧
      latency_samples ⟨150, 1⟩ 48000 1 = 7200 ∧
      ring_capacity ⟨150, 1⟩ 48000 1 = 14400 := by
  exact ⟨fun l r ch => ⟨rfl, Nat.mul_comm _ 2⟩, by decide, by decide, by decide⟩
